import Mathlib

/-
Verification of the PythonConcurrency repository.

The repository holds two small demonstration servers that fan out to slow
upstream HTTP endpoints, wait for all calls to finish, and report elapsed
time:

  * src/bruno_concurrent_http_server/server.py — a thread-per-unit variant:
    `parse_path` extracts the request arguments, `process_req` launches one
    `perform_request` thread per comma-separated delay argument, appending
    each decoded response into a `results` list that is a Python mutable
    default argument, and `MyServer.do_GET` joins every launched thread
    before answering.

  * src/server.py — a cooperative (asyncio) variant: `get` issues one
    aiohttp GET and discards the body, `main` runs `asyncio.gather` over
    one `get` task per URL.

This file shallowly embeds both variants: pure string manipulation is
translated function by function; the effect of the worker threads on the
shared `results` list is modelled by explicit state passing (completions
taken in launch order — the append count does not depend on the
interleaving); `asyncio.gather` with its default `return_exceptions=False`
is modelled over `Except`, an `Except.error` standing for a raised
exception; wall-clock timing is modelled by giving every unit a completion
time equal to its delay (all units start when the handler starts and run
genuinely in parallel, with zero launch overhead) and folding the join
loop over those times.
-/

/- ## Python string primitives used by the threaded server -/

/-- Python's `s.split(sep)` for a single-character separator, on character
lists: splits at every occurrence of `sep`, keeping empty pieces, and
`"".split(sep) == [""]` (the result is never empty). -/
def splitChar (sep : Char) : List Char → List (List Char)
  | [] => [[]]
  | c :: cs =>
    if c = sep then [] :: splitChar sep cs
    else
      match splitChar sep cs with
      | [] => [[c]]
      | r :: rs => (c :: r) :: rs

/-- Number of occurrences of a character in a list. -/
def countChar (a : Char) : List Char → Nat
  | [] => 0
  | c :: cs => (if c = a then 1 else 0) + countChar a cs

/-- Joins pieces with a separator between consecutive pieces (the inverse
of `splitChar`). -/
def joinSep (sep : Char) : List (List Char) → List Char
  | [] => []
  | [x] => x
  | x :: y :: ys => x ++ sep :: joinSep sep (y :: ys)

/-- The characters strictly after the final occurrence of `sep`, or the
whole list when `sep` does not occur. -/
def afterLast (sep : Char) : List Char → List Char
  | [] => []
  | c :: cs =>
    if sep ∈ cs then afterLast sep cs
    else if c = sep then cs else c :: cs

/-- Python's `s.split(sep)` on `String`. -/
def pySplit (sep : Char) (s : String) : List String :=
  (splitChar sep s.toList).map (fun l => ⟨l⟩)

/- ## Data model -/

/-- A decoded JSON payload, as produced by `json.loads`.  The servers never
inspect the payload, so an abstract tag suffices. -/
inductive Json where
  | obj : Nat → Json
deriving DecidableEq

/-- The ways an upstream call can fail, per the error taxonomy: transport
failure (`requests.get` / `aiohttp` raising), a timeout, or a body that is
not decodable (`json.loads` raising). -/
inductive NetError where
  | connectionError
  | timeoutError
  | decodeError
deriving DecidableEq

/-- A Python value that is either a string or a list — the `args` field of
`RequestPath` holds `parts[-1]` (a string) in the `/secs/` branch and the
default empty list otherwise. -/
inductive PyStrOrList where
  | str : String → PyStrOrList
  | list : List String → PyStrOrList
deriving DecidableEq

/-- Embedding of the `RequestPath` class of the threaded server. -/
structure RequestPath where
  path : String
  args : PyStrOrList
deriving DecidableEq

/- ## Threaded variant: src/bruno_concurrent_http_server/server.py -/

/-- Embedding of `parse_path`: `parts = path.split("/")`; if `"/secs/"`
occurs in `path`, return `RequestPath("/secs/", parts[-1])`, else
`RequestPath(path)` whose `args` is the default empty list.  `parts` is
provably nonempty (`splitChar_ne_nil`), so Python's `parts[-1]` is
`getLastD` with any default. -/
def parse_path (path : String) : RequestPath :=
  let parts := pySplit '/' path
  if "/secs/".toList <:+: path.toList then
    { path := "/secs/", args := PyStrOrList.str (parts.getLastD "") }
  else
    { path := path, args := PyStrOrList.list [] }

/-- The URLs whose fetch `process_req` launches, one thread per element of
`req.args.split(",")`: `f"http://httpbin.org/delay/{secs}"` for each
segment `secs`, in input order.  `process_req` is only reached from
`do_GET` on the `/secs/` branch, where `req.args` is the string
`parts[-1]`; this definition takes that string. -/
def process_req_urls (args : String) : List String :=
  (pySplit ',' args).map (fun secs => "http://httpbin.org/delay/" ++ secs)

/-- Embedding of `perform_request(url, results)`: `res = requests.get(url)`
(`httpGet`), then `results.append(json.loads(res.text))` (`jsonLoads`),
then `return res`.  An `Except.error` is an exception raised by
`requests.get` or `json.loads`; on success the new `results` list and the
response text are returned. -/
def perform_request (httpGet : String → Except NetError String)
    (jsonLoads : String → Except NetError Json)
    (url : String) (results : List Json) : Except NetError (List Json × String) :=
  match httpGet url with
  | Except.error e => Except.error e
  | Except.ok res =>
    match jsonLoads res with
    | Except.error e => Except.error e
    | Except.ok j => Except.ok (results ++ [j], res)

/-- The effect of one worker thread running `perform_request` on the shared
`results` list: on success the list gains the decoded payload; when
`perform_request` raises, the thread dies and the list is unchanged (the
code records no failure marker of any kind). -/
def threadRun (httpGet : String → Except NetError String)
    (jsonLoads : String → Except NetError Json)
    (url : String) (results : List Json) : List Json :=
  match perform_request httpGet jsonLoads url results with
  | Except.ok (rs, _) => rs
  | Except.error _ => results

/-- The combined effect on `results` of every worker thread of a batch
reaching its terminal state, completions taken in launch order (one
interleaving; how many entries are appended does not depend on the
order). -/
def runAllThreads (httpGet : String → Except NetError String)
    (jsonLoads : String → Except NetError Json)
    (urls : List String) (results : List Json) : List Json :=
  match urls with
  | [] => results
  | u :: us => runAllThreads httpGet jsonLoads us (threadRun httpGet jsonLoads u results)

/-- The state a server process carries between requests: the one list
object that Python binds to the `results=[]` default of `process_req` when
the `def` is executed.  Every call of `process_req(req)` from `do_GET`
passes no `results` argument, so every request handled by the process
mutates this same list. -/
structure ServerState where
  processReqResults : List Json
deriving DecidableEq

/-- The state of a freshly started server process: the default list is
created empty, once. -/
def initialServerState : ServerState := ⟨[]⟩

/-- One `/secs/` request handled end to end by `do_GET`: `process_req`
launches one thread per comma-separated argument, all threads are joined,
and the shared default `results` list has absorbed every successful
append. -/
def handleSecsRequest (httpGet : String → Except NetError String)
    (jsonLoads : String → Except NetError Json)
    (args : String) (st : ServerState) : ServerState :=
  ⟨runAllThreads httpGet jsonLoads (process_req_urls args) st.processReqResults⟩

/- ## Timing model of `do_GET` for a `/secs/` batch -/

/-- Timing of the join loop `for req in reqs: req.join()`: `now` is the
clock when the loop reaches the next thread, and joining a thread whose
terminal time is `d` completes at `max now d`.  All threads are launched
before any join (the list comprehension in `process_req` starts every
thread eagerly), at the handler's start time 0, and a unit whose upstream
delay is `d` reaches its terminal state at time `d` — units run in
parallel and never block one another. -/
def joinAll (now : Nat) : List Nat → Nat
  | [] => now
  | d :: ds => joinAll (max now d) ds

/-- Elapsed wall-clock time reported by `do_GET` (`get_elapsed(t0)`): the
start timestamp is taken before the launch, and the clock when the join
loop finishes is the end timestamp. -/
def elapsedSecs (delays : List Nat) : Nat := joinAll 0 delays

/- ## Cooperative variant: src/server.py -/

namespace Asyncio

/-- Embedding of `get(url)`: one aiohttp GET whose body is read and
discarded (`await response.read()`), returning `None`.  `fetch` is the
network: `Except.ok body` for a completed transport, `Except.error` for a
raised exception; `get` has no exception handler, so an error propagates. -/
def get (fetch : String → Except NetError String) (url : String) :
    Except NetError Unit :=
  match fetch url with
  | Except.error e => Except.error e
  | Except.ok _ => Except.ok ()

/-- `asyncio.gather(*aws)` with its default `return_exceptions=False`: the
list of every task's result when all succeed, otherwise the first raised
exception propagates to the awaiter (completions taken in task order). -/
def gather {α : Type} : List (Except NetError α) → Except NetError (List α)
  | [] => Except.ok []
  | x :: xs =>
    match x with
    | Except.error e => Except.error e
    | Except.ok a =>
      match gather xs with
      | Except.error e => Except.error e
      | Except.ok as => Except.ok (a :: as)

/-- Embedding of `main(urls)`: `await asyncio.gather(*[get(url) for url in
urls])`.  An `Except.error` result is an exception raised out of `main`
(and out of `asyncio.run`, into the Flask handler). -/
def main (fetch : String → Except NetError String) (urls : List String) :
    Except NetError (List Unit) :=
  gather (urls.map (get fetch))

end Asyncio

/- ## Concrete environments used by witnesses and counterexamples -/

/-- A network on which every `requests.get` completes. -/
def okGet : String → Except NetError String := fun _ => Except.ok "{}"

/-- A decoder on which every `json.loads` succeeds. -/
def okLoads : String → Except NetError Json := fun _ => Except.ok (Json.obj 0)

/-- A network returning a completed transport whose body is not JSON. -/
def htmlGet : String → Except NetError String := fun _ => Except.ok "<html>"

/-- A decoder for which `json.loads` raises on every body. -/
def failLoads : String → Except NetError Json := fun _ => Except.error NetError.decodeError

/-- A network refusing the first delay URL and completing every other. -/
def refuseFirstFetch : String → Except NetError String := fun u =>
  if u = "http://httpbin.org/delay/1" then Except.error NetError.connectionError
  else Except.ok "body"

/-- A network refusing every connection. -/
def refuseAllFetch : String → Except NetError String :=
  fun _ => Except.error NetError.connectionError

/-- A network on which every aiohttp GET completes. -/
def okFetch : String → Except NetError String := fun _ => Except.ok "body"

/- ## Helper lemmas: equations of `splitChar` -/

/-- Equation: splitting the empty list. -/
theorem splitChar_nil (sep : Char) : splitChar sep [] = [[]] := rfl

/-- Equation: a leading separator opens a fresh empty piece. -/
theorem splitChar_cons_sep (sep : Char) (cs : List Char) :
    splitChar sep (sep :: cs) = [] :: splitChar sep cs := by
  simp [splitChar]

/-- Equation: a leading non-separator joins the first piece of the tail's
split. -/
theorem splitChar_cons_ne (sep c : Char) (cs : List Char) (hc : c ≠ sep)
    (r : List Char) (rs : List (List Char)) (hsp : splitChar sep cs = r :: rs) :
    splitChar sep (c :: cs) = (c :: r) :: rs := by
  simp [splitChar, hc, hsp]

/-- `splitChar` never returns the empty list (Python's split always yields
at least one piece). -/
theorem splitChar_ne_nil (sep : Char) (l : List Char) : splitChar sep l ≠ [] := by
  cases l with
  | nil => simp [splitChar]
  | cons c cs =>
    by_cases hc : c = sep
    · subst hc
      rw [splitChar_cons_sep]
      simp
    · cases hsp : splitChar sep cs with
      | nil => exact absurd hsp (splitChar_ne_nil sep cs)
      | cons r rs =>
        rw [splitChar_cons_ne sep c cs hc r rs hsp]
        simp

/-- The number of pieces is one more than the number of separators. -/
theorem splitChar_length (sep : Char) (l : List Char) :
    (splitChar sep l).length = countChar sep l + 1 := by
  induction l with
  | nil => simp [splitChar, countChar]
  | cons c cs ih =>
    by_cases hc : c = sep
    · subst hc
      rw [splitChar_cons_sep]
      simp [countChar, ih]
      omega
    · cases hsp : splitChar sep cs with
      | nil => exact absurd hsp (splitChar_ne_nil sep cs)
      | cons r rs =>
        rw [splitChar_cons_ne sep c cs hc r rs hsp]
        rw [hsp] at ih
        simp only [List.length_cons] at ih ⊢
        simp only [countChar, if_neg hc]
        omega

/-- A list without the separator is a single piece. -/
theorem splitChar_of_not_mem (sep : Char) (l : List Char) (h : sep ∉ l) :
    splitChar sep l = [l] := by
  induction l with
  | nil => rfl
  | cons c cs ih =>
    have hc : c ≠ sep := fun hcc => h (hcc ▸ List.mem_cons_self c cs)
    have hcs : sep ∉ cs := fun hm => h (List.mem_cons_of_mem c hm)
    exact splitChar_cons_ne sep c cs hc cs [] (ih hcs)

/-- A list containing the separator splits into at least two pieces. -/
theorem splitChar_two_le (sep : Char) (l : List Char) (h : sep ∈ l) :
    2 ≤ (splitChar sep l).length := by
  induction l with
  | nil => cases h
  | cons c cs ih =>
    by_cases hc : c = sep
    · subst hc
      rw [splitChar_cons_sep]
      have h1 : 1 ≤ (splitChar c cs).length :=
        List.length_pos.mpr (splitChar_ne_nil c cs)
      simp only [List.length_cons]
      omega
    · have hcs : sep ∈ cs := by
        rcases List.mem_cons.mp h with h1 | h1
        · exact absurd h1.symm hc
        · exact h1
      have h2 := ih hcs
      cases hsp : splitChar sep cs with
      | nil => exact absurd hsp (splitChar_ne_nil sep cs)
      | cons r rs =>
        rw [splitChar_cons_ne sep c cs hc r rs hsp]
        rw [hsp] at h2
        simp only [List.length_cons] at h2 ⊢
        omega

/-- `afterLast` returns the whole list when the separator is absent. -/
theorem afterLast_of_not_mem (sep : Char) (l : List Char) (h : sep ∉ l) :
    afterLast sep l = l := by
  induction l with
  | nil => rfl
  | cons c cs ih =>
    have hc : c ≠ sep := fun hcc => h (hcc ▸ List.mem_cons_self c cs)
    have hcs : sep ∉ cs := fun hm => h (List.mem_cons_of_mem c hm)
    simp only [afterLast, if_neg hcs, if_neg hc]

/-- The last piece of a split is the text after the final separator. -/
theorem splitChar_getLastD (sep : Char) (l : List Char) (d : List Char) :
    (splitChar sep l).getLastD d = afterLast sep l := by
  induction l generalizing d with
  | nil => rfl
  | cons c cs ih =>
    by_cases hc : c = sep
    · subst hc
      rw [splitChar_cons_sep, List.getLastD_cons]
      by_cases hm : c ∈ cs
      · rw [ih]
        simp only [afterLast, if_pos hm]
      · rw [ih, afterLast_of_not_mem c cs hm]
        simp [afterLast, hm]
    · by_cases hm : sep ∈ cs
      · have h2 := splitChar_two_le sep cs hm
        cases hsp : splitChar sep cs with
        | nil => exact absurd hsp (splitChar_ne_nil sep cs)
        | cons r rs =>
          cases rs with
          | nil => rw [hsp] at h2; simp at h2
          | cons r1 rs1 =>
            rw [splitChar_cons_ne sep c cs hc r (r1 :: rs1) hsp]
            have ihd := ih d
            rw [hsp] at ihd
            simp only [List.getLastD_cons] at ihd ⊢
            rw [ihd]
            simp only [afterLast, if_pos hm]
      · rw [splitChar_cons_ne sep c cs hc cs [] (splitChar_of_not_mem sep cs hm)]
        simp only [afterLast, if_neg hm, if_neg hc]
        rfl

/-- Joining the pieces with the separator restores the original list. -/
theorem splitChar_joinSep (sep : Char) (l : List Char) :
    joinSep sep (splitChar sep l) = l := by
  induction l with
  | nil => rfl
  | cons c cs ih =>
    by_cases hc : c = sep
    · subst hc
      rw [splitChar_cons_sep]
      cases hsp : splitChar c cs with
      | nil => exact absurd hsp (splitChar_ne_nil c cs)
      | cons r rs =>
        rw [hsp] at ih
        simp only [joinSep, List.nil_append]
        rw [ih]
    · cases hsp : splitChar sep cs with
      | nil => exact absurd hsp (splitChar_ne_nil sep cs)
      | cons r rs =>
        rw [splitChar_cons_ne sep c cs hc r rs hsp]
        rw [hsp] at ih
        cases rs with
        | nil => simp only [joinSep] at ih ⊢; rw [ih]
        | cons r1 rs1 =>
          simp only [joinSep, List.cons_append] at ih ⊢
          rw [ih]

/-- No piece of a split contains the separator. -/
theorem splitChar_not_mem_piece (sep : Char) (l : List Char) (p : List Char)
    (hp : p ∈ splitChar sep l) : sep ∉ p := by
  induction l generalizing p with
  | nil =>
    rw [splitChar_nil, List.mem_singleton] at hp
    subst hp
    exact List.not_mem_nil sep
  | cons c cs ih =>
    by_cases hc : c = sep
    · subst hc
      rw [splitChar_cons_sep, List.mem_cons] at hp
      rcases hp with hp | hp
      · subst hp; exact List.not_mem_nil c
      · exact ih p hp
    · cases hsp : splitChar sep cs with
      | nil => exact absurd hsp (splitChar_ne_nil sep cs)
      | cons r rs =>
        rw [splitChar_cons_ne sep c cs hc r rs hsp, List.mem_cons] at hp
        rcases hp with hp | hp
        · subst hp
          intro hmem
          rcases List.mem_cons.mp hmem with h1 | h1
          · exact hc h1.symm
          · exact ih r (hsp ▸ List.mem_cons_self r rs) h1
        · exact ih p (hsp ▸ List.mem_cons_of_mem r hp)

/-- `getLastD` commutes with `map` (default mapped alongside). -/
theorem getLastD_map {α β : Type} (f : α → β) (l : List α) (d : α) :
    (l.map f).getLastD (f d) = f (l.getLastD d) := by
  induction l generalizing d with
  | nil => rfl
  | cons a l ih =>
    simp only [List.map_cons, List.getLastD_cons]
    exact ih a

/- ## Helper lemmas: the timing model -/

/-- The join loop computes the maximum of the starting clock and every
terminal time. -/
theorem joinAll_eq_max (ds : List Nat) (t : Nat) :
    joinAll t ds = max t (ds.foldr max 0) := by
  induction ds generalizing t with
  | nil => simp [joinAll]
  | cons d ds ih =>
    simp only [joinAll, List.foldr_cons, ih]
    omega

/-- Every element is bounded by the `max`-fold. -/
theorem mem_le_foldr_max (d : Nat) (ds : List Nat) (h : d ∈ ds) :
    d ≤ ds.foldr max 0 := by
  induction ds with
  | nil => cases h
  | cons x xs ih =>
    rcases List.mem_cons.mp h with h1 | h1
    · subst h1; simp only [List.foldr_cons]; omega
    · have := ih h1; simp only [List.foldr_cons]; omega

/-- The `max`-fold never exceeds the sum. -/
theorem foldr_max_le_sum (ds : List Nat) : ds.foldr max 0 ≤ ds.sum := by
  induction ds with
  | nil => simp
  | cons x xs ih => simp only [List.foldr_cons, List.sum_cons]; omega

/- ## Helper lemmas: `gather` -/

/-- `gather` propagates an exception whenever some task raised one. -/
theorem gather_error_of_mem {α : Type} (xs : List (Except NetError α))
    (e : NetError) (hx : Except.error e ∈ xs) :
    ∃ e2, Asyncio.gather xs = Except.error e2 := by
  induction xs with
  | nil => cases hx
  | cons y ys ih =>
    rcases List.mem_cons.mp hx with h1 | h1
    · subst h1
      exact ⟨e, rfl⟩
    · cases y with
      | error e3 => exact ⟨e3, rfl⟩
      | ok a =>
        rcases ih h1 with ⟨e2, h2⟩
        refine ⟨e2, ?_⟩
        simp only [Asyncio.gather, h2]

/-- `gather` returns one result per task when every task succeeded. -/
theorem gather_ok_of_all {α : Type} (xs : List (Except NetError α))
    (h : ∀ x ∈ xs, ∃ a, x = Except.ok a) :
    ∃ outs, Asyncio.gather xs = Except.ok outs ∧ outs.length = xs.length := by
  induction xs with
  | nil => exact ⟨[], rfl, rfl⟩
  | cons y ys ih =>
    rcases h y (List.mem_cons_self y ys) with ⟨a, ha⟩
    subst ha
    rcases ih (fun x hx => h x (List.mem_cons_of_mem _ hx)) with ⟨outs, ho, hl⟩
    refine ⟨a :: outs, ?_, by simp [hl]⟩
    simp only [Asyncio.gather, ho]

/- ## Claim theorems -/

/-- C9: for every path string `p`, `parse_path p` returns a `RequestPath`
with path "/secs/" and args the substring of `p` after its final "/"
exactly when "/secs/" occurs as a substring of `p`; for every other `p` it
returns a `RequestPath` with path `p` itself and an empty args
collection. -/
theorem C9_parse_path_correct (p : String) :
    (("/secs/".toList <:+: p.toList) →
      parse_path p =
        { path := "/secs/", args := PyStrOrList.str ⟨afterLast '/' p.toList⟩ })
    ∧ (¬ ("/secs/".toList <:+: p.toList) →
      parse_path p = { path := p, args := PyStrOrList.list [] }) := by
  constructor
  · intro h
    have h1 : (pySplit '/' p).getLastD "" = ⟨afterLast '/' p.toList⟩ := by
      have h2 := getLastD_map (fun l => (⟨l⟩ : String)) (splitChar '/' p.toList) []
      have h3 : ("" : String) = ⟨[]⟩ := rfl
      rw [pySplit, h3, h2, splitChar_getLastD]
    simp only [parse_path, if_pos h, h1]
  · intro h
    simp only [parse_path, if_neg h]

/-- C9 witness: the request path "/secs/1,2" contains "/secs/" and parses
to path "/secs/" with args "1,2", the text after the final slash. -/
theorem C9_parse_path_witness :
    parse_path ("/secs/1,2") =
      { path := "/secs/", args := PyStrOrList.str ("1,2") } :=
  (C9_parse_path_correct ("/secs/1,2")).1 ⟨[], ['1', ',', '2'], rfl⟩

/-- C10: for every args string `s`, `process_req` launches one unit per
comma-separated segment of `s`, in input order, each targeting
"http://httpbin.org/delay/" ++ segment verbatim: the segments contain no
comma, joined by commas they restore `s`, and there are exactly one more
of them than `s` has commas; in particular the empty args string launches
one unit targeting the bare prefix, not zero units. -/
theorem C10_process_req_launches (s : String) :
    (∃ segs : List String,
      process_req_urls s = segs.map (fun seg => "http://httpbin.org/delay/" ++ seg)
      ∧ joinSep ',' (segs.map String.toList) = s.toList
      ∧ (∀ seg ∈ segs, ',' ∉ seg.toList)
      ∧ segs.length = countChar ',' s.toList + 1)
    ∧ process_req_urls "" = ["http://httpbin.org/delay/"] := by
  constructor
  · refine ⟨pySplit ',' s, rfl, ?_, ?_, ?_⟩
    · have hmap : ((splitChar ',' s.toList).map (fun l => (⟨l⟩ : String))).map
          String.toList = splitChar ',' s.toList := by
        rw [List.map_map]
        have hco : (String.toList ∘ fun l => (⟨l⟩ : String)) = id := rfl
        rw [hco, List.map_id]
      rw [pySplit, hmap, splitChar_joinSep]
    · intro seg hseg
      rcases List.mem_map.mp hseg with ⟨piece, hpiece, hmk⟩
      rw [← hmk]
      exact splitChar_not_mem_piece ',' s.toList piece hpiece
    · simp only [pySplit, List.length_map, splitChar_length]
  · rfl

/-- C7: the elapsed wall-clock time of a batch of units with delays
`d1..dN` is `max(d1..dN)` in the timing model (all threads launched before
any join and running in parallel), never the sum: the units overlap. -/
theorem C7_elapsed_is_max (delays : List Nat) :
    elapsedSecs delays = delays.foldr max 0
    ∧ elapsedSecs delays ≤ delays.sum := by
  have h := joinAll_eq_max delays 0
  have h2 := foldr_max_le_sum delays
  constructor
  · rw [elapsedSecs, h]; omega
  · rw [elapsedSecs, h]; omega

/-- C6: the barrier of `do_GET` — one thread per URL launched by
`process_req`, every returned thread joined — never lets the handler
finish before a launched unit's terminal time, whatever completion times
the units have. -/
theorem C6_barrier (delayOf : String → Nat) (s : String) (u : String)
    (hu : u ∈ process_req_urls s) :
    delayOf u ≤ elapsedSecs ((process_req_urls s).map delayOf) := by
  have h1 : delayOf u ∈ (process_req_urls s).map delayOf :=
    List.mem_map_of_mem delayOf hu
  have h2 := mem_le_foldr_max (delayOf u) _ h1
  rw [elapsedSecs, joinAll_eq_max]
  omega

/-- C6 witness: the single unit of a `/secs/2` batch, taking 3 time units,
is joined before the handler finishes. -/
theorem C6_barrier_witness :
    3 ≤ elapsedSecs ((process_req_urls ("2")).map (fun _ => 3)) :=
  C6_barrier (fun _ => 3) ("2") ("http://httpbin.org/delay/2") (by decide)

/-- C4: running the coordinator over zero Targets yields the aggregate of
zero Outcomes immediately: `gather` of no tasks succeeds with the empty
list, no unit of work is created, and the modelled elapsed time is 0. -/
theorem C4_empty_run (fetch : String → Except NetError String) :
    Asyncio.main fetch [] = Except.ok []
    ∧ ([] : List String).map (Asyncio.get fetch) = []
    ∧ elapsedSecs [] = 0 :=
  ⟨rfl, rfl, rfl⟩

/-- C2 counterexample: two Targets, the first unit's connection refused and
the second fine; `main` does not return two Outcomes with one Failure —
`asyncio.gather` (default `return_exceptions=False`) propagates the
exception, so `run` raises to its caller. -/
theorem C2_counterexample :
    Asyncio.main refuseFirstFetch
      (["http://httpbin.org/delay/1", "http://httpbin.org/delay/2"]) =
      Except.error NetError.connectionError := rfl

/-- C2 as amended: when any unit of a batch fails, `main` raises an
exception to its caller instead of returning N Outcomes. -/
theorem C2_per_unit_error_raises (fetch : String → Except NetError String)
    (urls : List String) (u : String) (e : NetError)
    (hu : u ∈ urls) (he : fetch u = Except.error e) :
    ∃ e2, Asyncio.main fetch urls = Except.error e2 := by
  have h1 : Asyncio.get fetch u = Except.error e := by
    simp [Asyncio.get, he]
  have h2 : Except.error e ∈ urls.map (Asyncio.get fetch) := by
    have h3 := List.mem_map_of_mem (Asyncio.get fetch) hu
    rwa [h1] at h3
  exact gather_error_of_mem _ e h2

/-- C2 witness: a one-Target batch whose connection is refused makes
`main` raise. -/
theorem C2_witness :
    ∃ e2, Asyncio.main refuseAllFetch (["http://httpbin.org/delay/9"]) =
      Except.error e2 :=
  C2_per_unit_error_raises refuseAllFetch (["http://httpbin.org/delay/9"])
    ("http://httpbin.org/delay/9") NetError.connectionError
    (List.mem_singleton.mpr rfl) rfl

/-- C5 counterexample: `run` fails with no timeout in sight — a batch whose
single unit's connection is refused makes `main` raise, so the overall
timeout (which the code cannot even be given) is not the only way `run`
fails, and no Failure(Timeout)-bearing result is ever produced. -/
theorem C5_counterexample :
    Asyncio.main refuseAllFetch (["http://httpbin.org/delay/5"]) =
      Except.error NetError.connectionError := rfl

/-- C5 as amended: the code accepts no overall timeout; `run` waits until
every unit completes — on an all-success batch it returns exactly N
Outcomes (never cutting a slow unit short with a Timeout failure) — and it
can fail by raising a unit's error. -/
theorem C5_no_timeout_waits_for_all (fetch : String → Except NetError String)
    (urls : List String) (h : ∀ u ∈ urls, ∃ b, fetch u = Except.ok b) :
    ∃ outs, Asyncio.main fetch urls = Except.ok outs
      ∧ outs.length = urls.length := by
  have hall : ∀ x ∈ urls.map (Asyncio.get fetch), ∃ a, x = Except.ok a := by
    intro x hx
    rcases List.mem_map.mp hx with ⟨u, hu, hxu⟩
    rcases h u hu with ⟨b, hb⟩
    refine ⟨(), ?_⟩
    rw [← hxu]
    simp [Asyncio.get, hb]
  rcases gather_ok_of_all (urls.map (Asyncio.get fetch)) hall with ⟨outs, ho, hl⟩
  exact ⟨outs, ho, by simpa using hl⟩

/-- C5 witness: a two-Target all-success batch returns exactly two
Outcomes. -/
theorem C5_witness :
    ∃ outs, Asyncio.main okFetch (["x", "y"]) = Except.ok outs
      ∧ outs.length = 2 :=
  C5_no_timeout_waits_for_all okFetch (["x", "y"]) (fun _ _ => ⟨"body", rfl⟩)

/-- C3 counterexample: the transport completes (body "<html>") but decoding
fails; `perform_request` does not yield any Failure(DecodeError) Outcome —
it raises, the worker thread dies, and the batch records nothing for the
unit. -/
theorem C3_counterexample :
    perform_request htmlGet failLoads ("http://httpbin.org/delay/x") [] =
      Except.error NetError.decodeError
    ∧ runAllThreads htmlGet failLoads (["http://httpbin.org/delay/x"]) [] = [] :=
  ⟨rfl, rfl⟩

/-- C3 as amended: when the transport completes but `json.loads` fails,
`perform_request` raises the decode error inside its worker thread and the
`results` collection is left unchanged — the parsing failure is silently
swallowed, recorded as no Outcome at all. -/
theorem C3_decode_failure_drops (httpGet : String → Except NetError String)
    (jsonLoads : String → Except NetError Json)
    (url body : String) (e : NetError) (results : List Json)
    (hg : httpGet url = Except.ok body) (hd : jsonLoads body = Except.error e) :
    perform_request httpGet jsonLoads url results = Except.error e
    ∧ threadRun httpGet jsonLoads url results = results := by
  constructor
  · simp [perform_request, hg, hd]
  · simp [threadRun, perform_request, hg, hd]

/-- C3 witness: a concrete decode failure leaves the prior `results`
untouched and raises. -/
theorem C3_witness :
    perform_request htmlGet failLoads ("u") [Json.obj 7] =
      Except.error NetError.decodeError
    ∧ threadRun htmlGet failLoads ("u") [Json.obj 7] = [Json.obj 7] :=
  C3_decode_failure_drops htmlGet failLoads ("u") ("<html>")
    NetError.decodeError [Json.obj 7] rfl rfl

/-- C1 at its failing input: a fresh server handles `/secs/1` and then
`/secs/2`, every unit succeeding.  The second run submits one Target, yet
the shared `results` default list holds two Outcomes when it finishes: the
Outcome left over from the first run is still in the aggregate, violating
the count invariant across runs. -/
theorem C1_count_invariant_fails :
    (handleSecsRequest okGet okLoads ("2")
        (handleSecsRequest okGet okLoads ("1")
          initialServerState)).processReqResults.length = 2
    ∧ (process_req_urls ("2")).length = 1 :=
  ⟨rfl, rfl⟩

/-- C8 at its failing input: after one successful run the `process_req`
default collection is no longer the fresh empty list the claim promises,
and a second run's result depends on whether the first run happened — two
successive runs are not independent. -/
theorem C8_state_persists :
    handleSecsRequest okGet okLoads ("1") initialServerState ≠ initialServerState
    ∧ handleSecsRequest okGet okLoads ("2")
        (handleSecsRequest okGet okLoads ("1") initialServerState) ≠
      handleSecsRequest okGet okLoads ("2") initialServerState := by
  decide
